import Mathlib

/-!
Verification of the spice-tracker bot core logic.

The deposit/conversion flow is embedded from src/commands/logsolo.js and the
sqlite database layer (database.js); the rate limiter from
src/utils/rateLimiter.js; the expedition allocation engine, whose
implementation is not part of the available sources, is modelled from the
specification.
-/

namespace SpiceTracker

/-- A row of the sqlite users table (database.js: user_id TEXT PRIMARY KEY,
username, total_sand, total_melange, last_updated).  The timestamp is a
natural number standing for CURRENT_TIMESTAMP at the moment of the write. -/
structure UserRow where
  username : String
  total_sand : Nat
  total_melange : Nat
  last_updated : Nat
deriving DecidableEq

/-- The users table: rows keyed by user_id.  user_id is the primary key, so
any state reachable by the program has at most one row per key. -/
abbrev Db := List (String × UserRow)

/-- getUser (database.js lines 65-79): SELECT * FROM users WHERE user_id = ?,
returning the first matching row. -/
def getUser : Db → String → Option UserRow
  | [], _ => none
  | p :: rest, id => if p.1 == id then some p.2 else getUser rest id

/-- upsertUser (database.js lines 82-99): INSERT a fresh row with
total_sand = sandAmount and total_melange = 0, or ON CONFLICT update the
existing row, setting username, adding sandAmount to total_sand and
refreshing last_updated (total_melange untouched). -/
def upsertUser : Db → String → String → Nat → Nat → Db
  | [], id, name, sand, now => [(id, ⟨name, sand, 0, now⟩)]
  | p :: rest, id, name, sand, now =>
    if p.1 == id then
      (p.1, { p.2 with username := name, total_sand := p.2.total_sand + sand,
                       last_updated := now }) :: rest
    else p :: upsertUser rest id name sand now

/-- updateUserMelange (database.js lines 102-117): UPDATE users SET
total_melange = total_melange + ?, last_updated = CURRENT_TIMESTAMP WHERE
user_id = ?.  The only caller (logsolo.js line 47) passes a strictly
positive amount, hence a natural number. -/
def updateUserMelange : Db → String → Nat → Nat → Db
  | [], _, _, _ => []
  | p :: rest, id, amount, now =>
    if p.1 == id then
      (p.1, { p.2 with total_melange := p.2.total_melange + amount,
                       last_updated := now }) :: rest
    else p :: updateUserMelange rest id amount now

/-- resetAllStats (database.js lines 170-180): DELETE FROM users; resolves
this.changes, the number of rows deleted. -/
def resetAllStats (st : Db) : Nat × Db := (st.length, [])

/-- logsolo.js line 32: parseInt(await getSetting(..)) || 50 — a stored
value of 0 (or an unparsable one, which the integer model cannot produce)
falls back to the default rate 50. -/
def effectiveRate (stored : Nat) : Nat := if stored = 0 then 50 else stored

/-- logsolo.js line 41: totalMelangeEarned = Math.floor(total_sand / rate). -/
def melangeFor (totalSand sandPerMelange : Nat) : Nat :=
  totalSand / sandPerMelange

/-- logsolo.js line 51: remainingSand = total_sand % rate. -/
def remainingSandFor (totalSand sandPerMelange : Nat) : Nat :=
  totalSand % sandPerMelange

/-- The state-changing part of logsolo execute (logsolo.js lines 30-48):
read the conversion rate, upsert the user adding the deposited sand, then
recompute totalMelangeEarned from the cumulative total_sand and credit the
difference newMelange = totalMelangeEarned - total_melange only when it is
strictly positive. -/
def logsolo (st : Db) (rateSetting : Nat) (id name : String)
    (amount now : Nat) : Db :=
  let sandPerMelange := effectiveRate rateSetting
  let st1 := upsertUser st id name amount now
  match getUser st1 id with
  | none => st1
  | some u =>
    let totalMelangeEarned := melangeFor u.total_sand sandPerMelange
    if u.total_melange < totalMelangeEarned then
      updateUserMelange st1 id (totalMelangeEarned - u.total_melange) now
    else st1

/-- Global bot state: the stored sand_per_melange setting (settings table)
and the users table. -/
structure BotState where
  ratio : Nat
  users : Db
deriving DecidableEq

/-- The operations of the command surface that touch this state:
a /logsolo deposit, an admin /setrate change (setrate execute stores the
new rate via setSetting), and the admin /resetstats reset. -/
inductive Op where
  | deposit (id name : String) (amount now : Nat)
  | setrate (k : Nat)
  | reset
deriving DecidableEq

/-- One command execution against the bot state. -/
def step (s : BotState) : Op → BotState
  | .deposit id name amount now =>
      { s with users := logsolo s.users s.ratio id name amount now }
  | .setrate k => { s with ratio := k }
  | .reset => { s with users := (resetAllStats s.users).2 }

/-- A sequence of command executions. -/
def run (s : BotState) : List Op → BotState :=
  List.foldl step s

/-- The melange credited to a user (0 when the row is absent). -/
def earnedOf (s : BotState) (id : String) : Nat :=
  match getUser s.users id with
  | none => 0
  | some u => u.total_melange

/-- The cumulative raw sand recorded for a user (0 when the row is absent). -/
def sandOf (s : BotState) (id : String) : Nat :=
  match getUser s.users id with
  | none => 0
  | some u => u.total_sand

/-- The remainder the bot displays for a user (logsolo.js line 51 /
myrefines.js): cumulative sand modulo the effective rate. -/
def remainingSandOf (s : BotState) (id : String) : Nat :=
  remainingSandFor (sandOf s id) (effectiveRate s.ratio)

/-- Total raw amount deposited for a given user across a list of operations. -/
def depositSum (id : String) : List Op → Nat
  | [] => 0
  | .deposit j _ a _ :: rest => (if j = id then a else 0) + depositSum id rest
  | _ :: rest => depositSum id rest

/-- The operation is a deposit. -/
def Op.isDeposit : Op → Prop
  | .deposit _ _ _ _ => True
  | _ => False

/-- The row upsertUser leaves under the given key, as a function of the row
previously there. -/
def upsertRow (r : Option UserRow) (name : String) (sand now : Nat) : UserRow :=
  match r with
  | none => ⟨name, sand, 0, now⟩
  | some u => ⟨name, u.total_sand + sand, u.total_melange, now⟩

theorem getUser_upsertUser_self (st : Db) (id name : String) (sand now : Nat) :
    getUser (upsertUser st id name sand now) id =
      some (upsertRow (getUser st id) name sand now) := by
  induction st with
  | nil => simp [upsertUser, getUser, upsertRow]
  | cons p rest ih =>
    by_cases h : p.1 = id
    · simp [upsertUser, getUser, h, upsertRow]
    · simp [upsertUser, getUser, h, ih]

theorem getUser_upsertUser_ne (st : Db) (id name : String) (sand now : Nat)
    (j : String) (h : j ≠ id) :
    getUser (upsertUser st id name sand now) j = getUser st j := by
  induction st with
  | nil => simp [upsertUser, getUser, (Ne.symm h)]
  | cons p rest ih =>
    by_cases hp : p.1 = id
    · simp [upsertUser, getUser, hp, Ne.symm h]
    · by_cases hj : p.1 = j
      · simp [upsertUser, getUser, hp, hj, h, Ne.symm h]
      · simp [upsertUser, getUser, hp, hj, ih]

theorem getUser_updateUserMelange_self (st : Db) (id : String)
    (amt now : Nat) :
    getUser (updateUserMelange st id amt now) id =
      (getUser st id).map
        (fun u => ⟨u.username, u.total_sand, u.total_melange + amt, now⟩) := by
  induction st with
  | nil => simp [updateUserMelange, getUser]
  | cons p rest ih =>
    by_cases h : p.1 = id
    · simp [updateUserMelange, getUser, h]
    · simp [updateUserMelange, getUser, h, ih]

theorem getUser_updateUserMelange_ne (st : Db) (id : String)
    (amt now : Nat) (j : String) (h : j ≠ id) :
    getUser (updateUserMelange st id amt now) j = getUser st j := by
  induction st with
  | nil => simp [updateUserMelange, getUser]
  | cons p rest ih =>
    by_cases hp : p.1 = id
    · simp [updateUserMelange, getUser, hp, Ne.symm h]
    · by_cases hj : p.1 = j
      · simp [updateUserMelange, getUser, hp, hj, h, Ne.symm h]
      · simp [updateUserMelange, getUser, hp, hj, ih]

/-- The row logsolo leaves for the invoking user, as a function of the row
after the upsert: the conditional melange credit of logsolo.js lines 41-48. -/
def creditRow (u : UserRow) (rate now : Nat) : UserRow :=
  if u.total_melange < melangeFor u.total_sand rate then
    ⟨u.username, u.total_sand, melangeFor u.total_sand rate, now⟩
  else u

theorem creditRow_total_sand (u : UserRow) (rate now : Nat) :
    (creditRow u rate now).total_sand = u.total_sand := by
  unfold creditRow; split <;> rfl

theorem creditRow_total_melange (u : UserRow) (rate now : Nat) :
    (creditRow u rate now).total_melange =
      max u.total_melange (melangeFor u.total_sand rate) := by
  unfold creditRow
  split
  · rename_i hlt
    exact (Nat.max_eq_right (Nat.le_of_lt hlt)).symm
  · rename_i hge
    push_neg at hge
    exact (Nat.max_eq_left hge).symm

theorem getUser_logsolo_self (st : Db) (k : Nat) (id name : String)
    (a now : Nat) :
    getUser (logsolo st k id name a now) id =
      some (creditRow (upsertRow (getUser st id) name a now)
              (effectiveRate k) now) := by
  have h1 := getUser_upsertUser_self st id name a now
  simp only [logsolo, h1]
  unfold creditRow
  split
  · rename_i hlt
    rw [getUser_updateUserMelange_self, h1]
    simp only [Option.map_some', Option.some.injEq, UserRow.mk.injEq]
    exact ⟨trivial, trivial, by omega, trivial⟩
  · exact h1

theorem getUser_logsolo_ne (st : Db) (k : Nat) (id name : String)
    (a now : Nat) (j : String) (h : j ≠ id) :
    getUser (logsolo st k id name a now) j = getUser st j := by
  have h1 := getUser_upsertUser_self st id name a now
  simp only [logsolo, h1]
  split
  · rw [getUser_updateUserMelange_ne _ _ _ _ _ h,
      getUser_upsertUser_ne _ _ _ _ _ _ h]
  · exact getUser_upsertUser_ne st id name a now j h

theorem sandOf_step_deposit_self (s : BotState) (id name : String)
    (a now : Nat) :
    sandOf (step s (.deposit id name a now)) id = sandOf s id + a := by
  simp only [sandOf, step, getUser_logsolo_self, creditRow_total_sand]
  rcases hu : getUser s.users id with _ | u <;> simp [upsertRow]

theorem earnedOf_step_deposit_self (s : BotState) (id name : String)
    (a now : Nat) :
    earnedOf (step s (.deposit id name a now)) id =
      max (earnedOf s id)
        (melangeFor (sandOf s id + a) (effectiveRate s.ratio)) := by
  simp only [earnedOf, sandOf, step, getUser_logsolo_self,
    creditRow_total_melange]
  rcases hu : getUser s.users id with _ | u <;> simp [upsertRow]

theorem earnedOf_step_deposit_ne (s : BotState) (id name : String)
    (a now : Nat) (j : String) (h : j ≠ id) :
    earnedOf (step s (.deposit id name a now)) j = earnedOf s j := by
  simp only [earnedOf, step, getUser_logsolo_ne _ _ _ _ _ _ _ h]

theorem sandOf_step_deposit_ne (s : BotState) (id name : String)
    (a now : Nat) (j : String) (h : j ≠ id) :
    sandOf (step s (.deposit id name a now)) j = sandOf s j := by
  simp only [sandOf, step, getUser_logsolo_ne _ _ _ _ _ _ _ h]

theorem users_step_setrate (s : BotState) (k : Nat) :
    (step s (.setrate k)).users = s.users := rfl

theorem ratio_step_deposit (s : BotState) (id name : String) (a now : Nat) :
    (step s (.deposit id name a now)).ratio = s.ratio := rfl

theorem earnedOf_step_setrate (s : BotState) (k : Nat) (id : String) :
    earnedOf (step s (.setrate k)) id = earnedOf s id := rfl

theorem sandOf_step_setrate (s : BotState) (k : Nat) (id : String) :
    sandOf (step s (.setrate k)) id = sandOf s id := rfl

theorem ratio_step_setrate (s : BotState) (k : Nat) :
    (step s (.setrate k)).ratio = k := rfl

instance decidableIsDeposit (op : Op) : Decidable op.isDeposit :=
  match op with
  | .deposit _ _ _ _ => isTrue trivial
  | .setrate _ => isFalse (fun h => h)
  | .reset => isFalse (fun h => h)

theorem earnedOf_step_mono (s : BotState) (op : Op) (h : op ≠ Op.reset)
    (j : String) : earnedOf s j ≤ earnedOf (step s op) j := by
  cases op with
  | deposit id name a now =>
    by_cases hj : j = id
    · subst hj
      rw [earnedOf_step_deposit_self]
      exact Nat.le_max_left _ _
    · rw [earnedOf_step_deposit_ne _ _ _ _ _ _ hj]
  | setrate k => rw [earnedOf_step_setrate]
  | reset => exact absurd rfl h

theorem earnedOf_run_mono (ops : List Op) :
    ∀ s : BotState, (∀ op ∈ ops, op ≠ Op.reset) → ∀ j,
      earnedOf s j ≤ earnedOf (run s ops) j := by
  induction ops with
  | nil => intro s _ j; exact le_rfl
  | cons op rest ih =>
    intro s h j
    have h1 : op ≠ Op.reset := h op (List.mem_cons_self _ _)
    have h2 : ∀ o ∈ rest, o ≠ Op.reset :=
      fun o ho => h o (List.mem_cons_of_mem _ ho)
    calc earnedOf s j ≤ earnedOf (step s op) j := earnedOf_step_mono s op h1 j
      _ ≤ earnedOf (run (step s op) rest) j := ih (step s op) h2 j

theorem effectiveRate_of_pos {k : Nat} (hk : 0 < k) : effectiveRate k = k :=
  if_neg (by omega)

/-- Running a deposit-only workload preserves the ratio and keeps the
invariant that a user's credited melange is the floor of their cumulative
sand over the (positive) stored rate. -/
theorem run_all_deposits (ops : List Op) :
    ∀ s : BotState, (∀ op ∈ ops, op.isDeposit) → ∀ id : String,
      0 < s.ratio →
      earnedOf s id = melangeFor (sandOf s id) s.ratio →
      (run s ops).ratio = s.ratio ∧
      sandOf (run s ops) id = sandOf s id + depositSum id ops ∧
      earnedOf (run s ops) id =
        melangeFor (sandOf s id + depositSum id ops) s.ratio := by
  induction ops with
  | nil =>
    intro s _ id hk hinv
    exact ⟨rfl, by simp [depositSum, run, List.foldl],
      by simpa [depositSum, run, List.foldl] using hinv⟩
  | cons op rest ih =>
    intro s hdep id hk hinv
    cases op with
    | deposit i n a t =>
      have hrest : ∀ op ∈ rest, op.isDeposit :=
        fun o ho => hdep o (List.mem_cons_of_mem _ ho)
      have heff : effectiveRate s.ratio = s.ratio := effectiveRate_of_pos hk
      by_cases hi : i = id
      · subst hi
        have hs1 : sandOf (step s (.deposit i n a t)) i = sandOf s i + a :=
          sandOf_step_deposit_self s i n a t
        have he1 : earnedOf (step s (.deposit i n a t)) i =
            melangeFor (sandOf s i + a) s.ratio := by
          rw [earnedOf_step_deposit_self, heff, hinv]
          exact Nat.max_eq_right
            (Nat.div_le_div_right (Nat.le_add_right _ _))
        have hr1 : (step s (.deposit i n a t)).ratio = s.ratio := rfl
        have hmain := ih (step s (.deposit i n a t)) hrest i
          (by rw [hr1]; exact hk) (by rw [he1, hs1, hr1])
        rw [hr1, hs1] at hmain
        refine ⟨hmain.1, ?_, ?_⟩
        · show sandOf (run (step s (.deposit i n a t)) rest) i = _
          rw [hmain.2.1]
          simp [depositSum]
          omega
        · show earnedOf (run (step s (.deposit i n a t)) rest) i = _
          rw [hmain.2.2]
          simp [depositSum]
          congr 1
          omega
      · have hs1 : sandOf (step s (.deposit i n a t)) id = sandOf s id :=
          sandOf_step_deposit_ne s i n a t id (Ne.symm hi)
        have he1 : earnedOf (step s (.deposit i n a t)) id = earnedOf s id :=
          earnedOf_step_deposit_ne s i n a t id (Ne.symm hi)
        have hr1 : (step s (.deposit i n a t)).ratio = s.ratio := rfl
        have hmain := ih (step s (.deposit i n a t)) hrest id
          (by rw [hr1]; exact hk) (by rw [he1, hs1, hr1]; exact hinv)
        rw [hr1, hs1] at hmain
        refine ⟨hmain.1, ?_, ?_⟩
        · show sandOf (run (step s (.deposit i n a t)) rest) id = _
          rw [hmain.2.1]
          simp [depositSum, hi]
        · show earnedOf (run (step s (.deposit i n a t)) rest) id = _
          rw [hmain.2.2]
          simp [depositSum, hi]
    | setrate k => exact (hdep _ (List.mem_cons_self _ _)).elim
    | reset => exact (hdep _ (List.mem_cons_self _ _)).elim

/-- C1, counterexample: two deposits of 30 sand at the fixed rate 50 leave
the user with 1 melange, while the sum of the per-deposit floors is
0 + 0 = 0.  The code converts from the running cumulative raw total, so
remainders carry across deposits. -/
theorem earned_not_sum_of_per_deposit_floors :
    earnedOf (run ⟨50, []⟩
        [Op.deposit "u" "n" 30 0, Op.deposit "u" "n" 30 1]) "u" = 1 ∧
    melangeFor 30 50 + melangeFor 30 50 = 0 := by decide

/-- C1, amended: each deposit's melange credit is computed from the running
cumulative raw total, not independently per deposit: for any deposit-only
workload at a fixed positive rate k, the earned total equals
floor(cumulative raw / k), remainders carrying over between deposits. -/
theorem earned_is_floor_of_cumulative_sand (k : Nat) (ops : List Op)
    (id : String) (hk : 0 < k) (hdep : ∀ op ∈ ops, op.isDeposit) :
    earnedOf (run ⟨k, []⟩ ops) id = melangeFor (depositSum id ops) k := by
  have h := run_all_deposits ops ⟨k, []⟩ hdep id hk
    (by simp [earnedOf, sandOf, getUser, melangeFor])
  have h0s : sandOf ⟨k, []⟩ id = 0 := rfl
  have := h.2.2
  rw [h0s, Nat.zero_add] at this
  exact this

/-- Witness for the amended C1 at a concrete workload. -/
theorem earned_is_floor_of_cumulative_sand_witness :
    0 < 50 ∧
    earnedOf (run ⟨50, []⟩
        [Op.deposit "u" "n" 30 0, Op.deposit "u" "n" 45 1]) "u" =
      melangeFor (depositSum "u"
        [Op.deposit "u" "n" 30 0, Op.deposit "u" "n" 45 1]) 50 :=
  ⟨by decide,
    earned_is_floor_of_cumulative_sand 50
      [Op.deposit "u" "n" 30 0, Op.deposit "u" "n" 45 1] "u"
      (by decide) (by decide)⟩

/-- C3: across any sequence of deposits and rate changes — any operations
other than the administrative reset — a user's earned melange total never
decreases. -/
theorem earned_monotone_without_reset (s : BotState) (ops : List Op)
    (h : ∀ op ∈ ops, op ≠ Op.reset) (id : String) :
    earnedOf s id ≤ earnedOf (run s ops) id :=
  earnedOf_run_mono ops s h id

/-- Witness for C3 at a concrete state and workload. -/
theorem earned_monotone_without_reset_witness :
    (∀ op ∈ [Op.deposit "u" "n" 120 0, Op.setrate 40,
        Op.deposit "u" "n" 10 1], op ≠ Op.reset) ∧
    earnedOf ⟨50, [("u", ⟨"n", 0, 7, 0⟩)]⟩ "u" ≤
      earnedOf (run ⟨50, [("u", ⟨"n", 0, 7, 0⟩)]⟩
        [Op.deposit "u" "n" 120 0, Op.setrate 40,
         Op.deposit "u" "n" 10 1]) "u" :=
  ⟨by decide,
    earned_monotone_without_reset ⟨50, [("u", ⟨"n", 0, 7, 0⟩)]⟩
      [Op.deposit "u" "n" 120 0, Op.setrate 40, Op.deposit "u" "n" 10 1]
      (by decide) "u"⟩

/-- C6: a fresh user depositing 2500 sand at rate 50 ends with 50 melange
and remainder 0; a fresh user depositing 2530 sand at rate 50 ends with 50
melange and remainder 30. -/
theorem scenario_deposits_at_rate_50 :
    (earnedOf (run ⟨50, []⟩ [Op.deposit "u" "n" 2500 0]) "u" = 50 ∧
     remainingSandOf (run ⟨50, []⟩ [Op.deposit "u" "n" 2500 0]) "u" = 0) ∧
    (earnedOf (run ⟨50, []⟩ [Op.deposit "u" "n" 2530 0]) "u" = 50 ∧
     remainingSandOf (run ⟨50, []⟩ [Op.deposit "u" "n" 2530 0]) "u" = 30) := by
  decide

/-- C7, counterexample: deposit 30 at rate 50, change the rate to 40, then
deposit 30 again: the user ends with floor(60/40) = 1 melange, not
floor(30/50) + floor(30/40) = 0 as the claim computes. -/
theorem ratio_change_per_deposit_sum_counterexample :
    earnedOf (run ⟨50, []⟩
        [Op.deposit "u" "n" 30 0, Op.setrate 40,
         Op.deposit "u" "n" 30 1]) "u" = 1 ∧
    melangeFor 30 50 + melangeFor 30 40 = 0 := by decide

/-- C7, amended: a rate change does not retroactively alter the melange
already credited (after deposit d1 at rate k1 and a rate change to k2 the
earned total is still floor(d1/k1)), but the conversion applies the new
rate to the cumulative sand, so after a further deposit d2 the earned
total is max(floor(d1/k1), floor((d1+d2)/k2)), not
floor(d1/k1) + floor(d2/k2). -/
theorem ratio_change_not_retroactive_cumulative (id n1 n2 : String)
    (t1 t2 d1 d2 k1 k2 : Nat) (h1 : 0 < k1) (h2 : 0 < k2) :
    earnedOf (run ⟨k1, []⟩ [Op.deposit id n1 d1 t1, Op.setrate k2]) id =
      melangeFor d1 k1 ∧
    earnedOf (run ⟨k1, []⟩ [Op.deposit id n1 d1 t1, Op.setrate k2,
        Op.deposit id n2 d2 t2]) id =
      max (melangeFor d1 k1) (melangeFor (d1 + d2) k2) := by
  have heff1 : effectiveRate k1 = k1 := effectiveRate_of_pos h1
  have heff2 : effectiveRate k2 = k2 := effectiveRate_of_pos h2
  have hd1 : earnedOf (step ⟨k1, []⟩ (Op.deposit id n1 d1 t1)) id =
      melangeFor d1 k1 := by
    rw [earnedOf_step_deposit_self]
    show max (earnedOf ⟨k1, []⟩ id)
        (melangeFor (sandOf ⟨k1, []⟩ id + d1) (effectiveRate k1)) = _
    rw [heff1]
    simp [earnedOf, sandOf, getUser]
  have hsand1 : sandOf (step ⟨k1, []⟩ (Op.deposit id n1 d1 t1)) id = d1 := by
    rw [sandOf_step_deposit_self]
    simp [sandOf, getUser]
  constructor
  · show earnedOf (step (step ⟨k1, []⟩ (Op.deposit id n1 d1 t1))
        (Op.setrate k2)) id = _
    rw [earnedOf_step_setrate, hd1]
  · show earnedOf (step (step (step ⟨k1, []⟩ (Op.deposit id n1 d1 t1))
        (Op.setrate k2)) (Op.deposit id n2 d2 t2)) id = _
    rw [earnedOf_step_deposit_self, earnedOf_step_setrate, hd1,
      sandOf_step_setrate, hsand1]
    show max _ (melangeFor (d1 + d2) (effectiveRate k2)) = _
    rw [heff2]

/-- Witness for the amended C7 at concrete deposits and rates. -/
theorem ratio_change_not_retroactive_cumulative_witness :
    0 < 50 ∧ 0 < 40 ∧
    (earnedOf (run ⟨50, []⟩ [Op.deposit "u" "a" 30 0, Op.setrate 40]) "u" =
       melangeFor 30 50 ∧
     earnedOf (run ⟨50, []⟩ [Op.deposit "u" "a" 30 0, Op.setrate 40,
         Op.deposit "u" "b" 30 1]) "u" =
       max (melangeFor 30 50) (melangeFor (30 + 30) 40)) :=
  ⟨by decide, by decide,
    ratio_change_not_retroactive_cumulative "u" "a" "b" 0 1 30 30 50 40
      (by decide) (by decide)⟩

/-- C2: for positive raw amount r and rate k > 0, the conversion yields
whole units floor(r/k) and remainder r - floor(r/k)*k, which is below k. -/
theorem conversion_floor_and_remainder (r k : Nat) (hr : 0 < r)
    (hk : 0 < k) :
    melangeFor r k = r / k ∧
    remainingSandFor r k = r - (r / k) * k ∧
    remainingSandFor r k < k := by
  refine ⟨rfl, ?_, Nat.mod_lt r hk⟩
  have h := Nat.mod_add_div' r k
  unfold remainingSandFor
  omega

/-- Witness for C2 at r = 2530, k = 50. -/
theorem conversion_floor_and_remainder_witness :
    0 < 2530 ∧ 0 < 50 ∧
    (melangeFor 2530 50 = 2530 / 50 ∧
     remainingSandFor 2530 50 = 2530 - (2530 / 50) * 50 ∧
     remainingSandFor 2530 50 < 50) :=
  ⟨by decide, by decide,
    conversion_floor_and_remainder 2530 50 (by decide) (by decide)⟩

/-- C8, counterexample: resetting with one user on record reports 1 user
affected but the row is deleted outright — looking the user up afterwards
yields nothing, not a kept row with zeroed counters. -/
theorem resetAllStats_keeps_rows_counterexample :
    (resetAllStats [("u1", ⟨"alice", 120, 2, 0⟩)]).1 = 1 ∧
    getUser (resetAllStats [("u1", ⟨"alice", 120, 2, 0⟩)]).2 "u1" = none := by
  decide

/-- C8, amended: the administrative reset deletes every user row (DELETE
FROM users) rather than zeroing counters in place — afterwards no user can
be looked up — and it returns the number of rows deleted. -/
theorem resetAllStats_deletes_all_rows (st : Db) (id : String) :
    (resetAllStats st).1 = st.length ∧
    getUser (resetAllStats st).2 id = none :=
  ⟨rfl, rfl⟩

/-- C9: upsertUser adds sandAmount to an existing row's total_sand, updates
its username and last_updated and leaves total_melange unchanged; for an
absent row it creates one with total_sand = sandAmount and
total_melange = 0; rows under other keys are untouched. -/
theorem upsertUser_spec (st : Db) (id name : String) (a now : Nat) :
    (∀ r : UserRow, getUser st id = some r →
      getUser (upsertUser st id name a now) id =
        some ⟨name, r.total_sand + a, r.total_melange, now⟩) ∧
    (getUser st id = none →
      getUser (upsertUser st id name a now) id = some ⟨name, a, 0, now⟩) ∧
    (∀ j : String, j ≠ id →
      getUser (upsertUser st id name a now) j = getUser st j) := by
  refine ⟨?_, ?_, fun j hj => getUser_upsertUser_ne st id name a now j hj⟩
  · intro r hr
    rw [getUser_upsertUser_self, hr]
    rfl
  · intro hn
    rw [getUser_upsertUser_self, hn]
    rfl

/-- Witness for C9: an existing row and a fresh row at concrete inputs. -/
theorem upsertUser_spec_witness :
    getUser (upsertUser [("u", ⟨"old", 10, 2, 0⟩)] "u" "new" 5 7) "u" =
      some ⟨"new", 15, 2, 7⟩ ∧
    getUser (upsertUser [] "v" "n" 5 7) "v" = some ⟨"n", 5, 0, 7⟩ :=
  ⟨(upsertUser_spec [("u", ⟨"old", 10, 2, 0⟩)] "u" "new" 5 7).1
      ⟨"old", 10, 2, 0⟩ (by decide),
   (upsertUser_spec [] "v" "n" 5 7).2.1 (by decide)⟩

/-- A rate limit configuration (rateLimiter.js: maxUses per windowMs). -/
structure RateConfig where
  maxUses : Nat
  windowMs : Nat
deriving DecidableEq

/-- An entry of the rateLimits Map (rateLimiter.js): a use counter and the
time at which the current window ends. -/
structure RateEntry where
  count : Nat
  resetTime : Nat
deriving DecidableEq

/-- RATE_LIMIT_CONFIG (rateLimiter.js lines 7-13). -/
def rateLimitConfigOf : String → Option RateConfig
  | "logsolo" => some ⟨10, 60000⟩
  | "myrefines" => some ⟨5, 30000⟩
  | "leaderboard" => some ⟨3, 60000⟩
  | "setrate" => some ⟨2, 300000⟩
  | "resetstats" => some ⟨1, 600000⟩
  | _ => none

/-- checkRateLimit (rateLimiter.js lines 21-56), for one userId:command key
of the rateLimits Map: st is that key's entry before the call (none when
absent), now is Date.now() in milliseconds.  Returns the boolean result and
the entry after the call.  With no configured limit it returns true without
touching the map; otherwise a missing entry is created with count 0, an
expired window (now at or past resetTime) restarts the entry, a call at the
limit returns false, and an allowed call increments the counter. -/
def checkRateLimit (command : String) (now : Nat)
    (st : Option RateEntry) : Bool × Option RateEntry :=
  match rateLimitConfigOf command with
  | none => (true, st)
  | some cfg =>
    let e0 : RateEntry :=
      match st with
      | none => ⟨0, now + cfg.windowMs⟩
      | some e => e
    let e1 : RateEntry :=
      if e0.resetTime ≤ now then ⟨0, now + cfg.windowMs⟩ else e0
    if cfg.maxUses ≤ e1.count then (false, some e1)
    else (true, some ⟨e1.count + 1, e1.resetTime⟩)

/-- Successive checkRateLimit calls for one userId:command key at the given
times, collecting the returned booleans. -/
def runRateCalls (command : String) :
    Option RateEntry → List Nat → List Bool
  | _, [] => []
  | st, t :: ts =>
    let r := checkRateLimit command t st
    r.1 :: runRateCalls command r.2 ts

/-- Within one window (every call time below the entry's resetTime), a run
starting from count c yields true for the first maxUses - c calls and false
for every further call. -/
theorem runRateCalls_within_window (command : String) (cfg : RateConfig)
    (hc : rateLimitConfigOf command = some cfg) (ts : List Nat) :
    ∀ c T : Nat, (∀ t ∈ ts, t < T) →
      runRateCalls command (some ⟨c, T⟩) ts =
        List.replicate (min ts.length (cfg.maxUses - c)) true ++
        List.replicate (ts.length - (cfg.maxUses - c)) false := by
  induction ts with
  | nil => intro c T _; simp [runRateCalls]
  | cons t ts ih =>
    intro c T h
    have ht : t < T := h t (List.mem_cons_self _ _)
    have hts : ∀ u ∈ ts, u < T := fun u hu => h u (List.mem_cons_of_mem _ hu)
    simp only [runRateCalls, checkRateLimit, hc]
    rw [if_neg (show ¬ T ≤ t by omega)]
    dsimp only
    by_cases hcm : cfg.maxUses ≤ c
    · rw [if_pos hcm]
      dsimp only
      have hm0 : cfg.maxUses - c = 0 := Nat.sub_eq_zero_of_le hcm
      rw [ih c T hts]
      simp [hm0, List.replicate_succ]
    · rw [if_neg hcm]
      dsimp only
      rw [ih (c + 1) T hts]
      have h1 : min (ts.length + 1) (cfg.maxUses - c) =
          min ts.length (cfg.maxUses - (c + 1)) + 1 := by omega
      have h2 : ts.length + 1 - (cfg.maxUses - c) =
          ts.length - (cfg.maxUses - (c + 1)) := by omega
      simp only [List.length_cons, h1, h2, List.replicate_succ,
        List.cons_append]

/-- C10: for a command with no configured limit checkRateLimit always
returns true (and leaves the map entry alone); for a configured command,
calls all falling inside the window opened by the first call return true
exactly maxUses times and false after that; and a call at or past the
entry's resetTime starts a fresh window whose counter is restarted at zero
(then incremented by the allowed call itself). -/
theorem checkRateLimit_spec (command : String) :
    (rateLimitConfigOf command = none →
      ∀ (now : Nat) (st : Option RateEntry),
        checkRateLimit command now st = (true, st)) ∧
    (∀ cfg : RateConfig, rateLimitConfigOf command = some cfg →
      0 < cfg.windowMs →
      ∀ (t0 : Nat) (ts : List Nat),
        (∀ t ∈ ts, t < t0 + cfg.windowMs) →
        runRateCalls command none (t0 :: ts) =
          List.replicate (min (ts.length + 1) cfg.maxUses) true ++
          List.replicate (ts.length + 1 - cfg.maxUses) false) ∧
    (∀ cfg : RateConfig, rateLimitConfigOf command = some cfg →
      ∀ (e : RateEntry) (now : Nat), e.resetTime ≤ now →
        0 < cfg.maxUses →
        checkRateLimit command now (some e) =
          (true, some ⟨1, now + cfg.windowMs⟩)) := by
  refine ⟨?_, ?_, ?_⟩
  · intro hn now st
    simp [checkRateLimit, hn]
  · intro cfg hc hw t0 ts hts
    simp only [runRateCalls, checkRateLimit, hc]
    rw [if_neg (show ¬ t0 + cfg.windowMs ≤ t0 by omega)]
    dsimp only
    by_cases hm : cfg.maxUses ≤ 0
    · rw [if_pos hm]
      dsimp only
      rw [runRateCalls_within_window command cfg hc ts 0
        (t0 + cfg.windowMs) hts]
      have hm0 : cfg.maxUses = 0 := by omega
      simp [hm0, List.replicate_succ]
    · rw [if_neg hm]
      dsimp only
      rw [runRateCalls_within_window command cfg hc ts 1
        (t0 + cfg.windowMs) hts]
      have h1 : min (ts.length + 1) cfg.maxUses =
          min ts.length (cfg.maxUses - 1) + 1 := by omega
      have h2 : ts.length + 1 - cfg.maxUses =
          ts.length - (cfg.maxUses - 1) := by omega
      simp only [List.length_cons, h1, h2, List.replicate_succ,
        List.cons_append]
  · intro cfg hc e now hr hm
    simp only [checkRateLimit, hc]
    rw [if_pos hr]
    dsimp only
    rw [if_neg (show ¬ cfg.maxUses ≤ 0 by omega)]

/-- Witness for C10: the setrate limit (2 uses per 300000 ms) admits the
first two of three calls inside one window; an unconfigured command always
passes; an expired entry restarts. -/
theorem checkRateLimit_spec_witness :
    runRateCalls "setrate" none [0, 1, 2] = [true, true, false] ∧
    checkRateLimit "unknowncmd" 5 none = (true, none) ∧
    checkRateLimit "setrate" 300000 (some ⟨2, 300000⟩) =
      (true, some ⟨1, 600000⟩) :=
  ⟨(checkRateLimit_spec "setrate").2.1 ⟨2, 300000⟩ rfl (by decide) 0 [1, 2]
      (by decide),
   (checkRateLimit_spec "unknowncmd").1 rfl 5 none,
   (checkRateLimit_spec "setrate").2.2 ⟨2, 300000⟩ rfl ⟨2, 300000⟩ 300000
      (by decide) (by decide)⟩

/-- Modelled from the spec: an expedition participant as passed to the
AllocationEngine (§4.2) — an id and an optional explicit percentage. -/
structure Participant where
  id : String
  explicitPercent : Option Nat
deriving DecidableEq

/-- Modelled from the spec: one participant's computed shares (§4.2). -/
structure ParticipantShare where
  id : String
  rawShare : Nat
  currencyShare : Nat
deriving DecidableEq

/-- Modelled from the spec: the result of a successful allocate call (§4.2). -/
structure AllocationResult where
  treasuryRawShare : Nat
  perParticipant : List ParticipantShare
deriving DecidableEq

/-- Modelled from the spec: the explicit participants' percentages, in
caller order (§4.2 step 3). -/
def explicitPercents (parts : List Participant) : List Nat :=
  parts.filterMap (fun p => p.explicitPercent)

/-- Modelled from the spec: the number of implicit participants (§4.2
step 5). -/
def implicitCount (parts : List Participant) : Nat :=
  (parts.filter (fun p => p.explicitPercent.isNone)).length

/-- Modelled from the spec: treasuryRawShare = floor(totalRaw *
treasuryPercent / 100) (§4.2 step 1). -/
def treasuryRawShareOf (totalRaw treasuryPercent : Nat) : Nat :=
  totalRaw * treasuryPercent / 100

/-- Modelled from the spec: remainingRaw = totalRaw - treasuryRawShare
(§4.2 step 2). -/
def remainingPool (totalRaw treasuryPercent : Nat) : Nat :=
  totalRaw - treasuryRawShareOf totalRaw treasuryPercent

/-- Modelled from the spec: an explicit participant's raw share
floor(remainingRaw * explicitPercent / 100) (§4.2 step 4). -/
def explicitShare (remaining e : Nat) : Nat := remaining * e / 100

/-- Modelled from the spec: the residual for implicit participants:
remainingRaw minus the explicit shares (§4.2 step 5). -/
def residualPool (totalRaw treasuryPercent : Nat)
    (parts : List Participant) : Nat :=
  remainingPool totalRaw treasuryPercent -
    ((explicitPercents parts).map
      (explicitShare (remainingPool totalRaw treasuryPercent))).sum

/-- Modelled from the spec: the AllocationEngine contract of §4.2, whose
implementation (the /split command of the later Python bot) is absent from
the available sources.  Validation per §4.2 step 3 and the listed error
conditions (invalid input yields none, nothing partial); allocation per
steps 1-6: treasury cut off the top, explicit shares as floors of the
remaining pool, the residual split equally (floor) among implicit
participants, each raw share converted independently at the captured
ratio. -/
def allocate (totalRaw treasuryPercent ratio : Nat)
    (parts : List Participant) : Option AllocationResult :=
  if totalRaw = 0 ∨ 100 < treasuryPercent ∨ parts = [] ∨
      (∃ e ∈ explicitPercents parts, 100 < e) ∨
      100 < (explicitPercents parts).sum then
    none
  else
    some ⟨treasuryRawShareOf totalRaw treasuryPercent,
      parts.map (fun p =>
        match p.explicitPercent with
        | some e =>
            ⟨p.id, explicitShare (remainingPool totalRaw treasuryPercent) e,
             melangeFor
               (explicitShare (remainingPool totalRaw treasuryPercent) e)
               ratio⟩
        | none =>
            ⟨p.id,
             residualPool totalRaw treasuryPercent parts /
               implicitCount parts,
             melangeFor
               (residualPool totalRaw treasuryPercent parts /
                 implicitCount parts) ratio⟩)⟩

theorem sum_rawShare_map (parts : List Participant)
    (remaining impShare ratio : Nat) :
    (((parts.map (fun p =>
        match p.explicitPercent with
        | some e =>
            (⟨p.id, explicitShare remaining e,
              melangeFor (explicitShare remaining e) ratio⟩ :
                ParticipantShare)
        | none => ⟨p.id, impShare, melangeFor impShare ratio⟩)).map
          (fun s => s.rawShare)).sum)
    = ((explicitPercents parts).map (explicitShare remaining)).sum +
      implicitCount parts * impShare := by
  induction parts with
  | nil => simp [explicitPercents, implicitCount]
  | cons p rest ih =>
    rcases hp : p.explicitPercent with _ | e
    · simp only [List.map_cons, hp, List.sum_cons]
      rw [ih]
      simp [explicitPercents, implicitCount, hp, List.filterMap_cons,
        List.filter_cons]
      ring
    · simp only [List.map_cons, hp, List.sum_cons]
      rw [ih]
      simp [explicitPercents, implicitCount, hp, List.filterMap_cons,
        List.filter_cons]
      ring

theorem sum_explicitShare_le_div (remaining : Nat) (ps : List Nat) :
    ((ps.map (explicitShare remaining)).sum) ≤ remaining * ps.sum / 100 := by
  induction ps with
  | nil => simp
  | cons e rest ih =>
    simp only [List.map_cons, List.sum_cons, explicitShare] at ih ⊢
    calc remaining * e / 100 + ((rest.map
          (fun x => remaining * x / 100)).sum)
        ≤ remaining * e / 100 + remaining * rest.sum / 100 :=
          Nat.add_le_add_left ih _
      _ ≤ (remaining * e + remaining * rest.sum) / 100 :=
          Nat.add_div_le_add_div _ _ _
      _ = remaining * (e + rest.sum) / 100 := by rw [Nat.mul_add]

theorem sum_explicitShare_le (remaining : Nat) (ps : List Nat)
    (h : ps.sum ≤ 100) :
    ((ps.map (explicitShare remaining)).sum) ≤ remaining := by
  have h1 := sum_explicitShare_le_div remaining ps
  have h2 : remaining * ps.sum ≤ remaining * 100 :=
    Nat.mul_le_mul_left _ h
  have h3 : remaining * ps.sum / 100 ≤ remaining * 100 / 100 :=
    Nat.div_le_div_right h2
  omega

theorem treasuryRawShareOf_le (t p : Nat) (hp : p ≤ 100) :
    treasuryRawShareOf t p ≤ t := by
  unfold treasuryRawShareOf
  have h1 : t * p ≤ t * 100 := Nat.mul_le_mul_left _ hp
  have h2 : t * p / 100 ≤ t * 100 / 100 := Nat.div_le_div_right h1
  omega

/-- C4, counterexample: allocate(10, 0, [three implicit participants]) is a
valid call, yet the treasury cut (0) plus the participants' raw shares
(3 + 3 + 3) totals 9, not the full 10: one raw unit is unaccounted. -/
theorem allocate_exact_conservation_counterexample :
    (allocate 10 0 1 [⟨"A", none⟩, ⟨"B", none⟩, ⟨"C", none⟩]).map
        (fun res => res.treasuryRawShare +
          ((res.perParticipant.map (fun s => s.rawShare)).sum))
      = some 9 := by decide

/-- C4, amended: for every valid allocate call the treasury cut plus the
participants' raw shares never exceeds total_sand, and equals it exactly
when the implicit count divides the residual evenly (no implicit-residual
leftover) — not in general. -/
theorem allocate_raw_conservation (totalRaw treasuryPercent ratio : Nat)
    (parts : List Participant) (res : AllocationResult)
    (h : allocate totalRaw treasuryPercent ratio parts = some res) :
    res.treasuryRawShare +
      ((res.perParticipant.map (fun s => s.rawShare)).sum) ≤ totalRaw ∧
    (implicitCount parts ∣ residualPool totalRaw treasuryPercent parts →
      res.treasuryRawShare +
        ((res.perParticipant.map (fun s => s.rawShare)).sum) = totalRaw) := by
  unfold allocate at h
  by_cases hcond : totalRaw = 0 ∨ 100 < treasuryPercent ∨ parts = [] ∨
      (∃ e ∈ explicitPercents parts, 100 < e) ∨
      100 < (explicitPercents parts).sum
  · rw [if_pos hcond] at h
    cases h
  · rw [if_neg hcond] at h
    push_neg at hcond
    obtain ⟨h0, hp, hne, hex, hsum⟩ := hcond
    have hres := Option.some.inj h
    subst hres
    dsimp only
    rw [sum_rawShare_map]
    have hS : ((explicitPercents parts).map
        (explicitShare (remainingPool totalRaw treasuryPercent))).sum ≤
        remainingPool totalRaw treasuryPercent :=
      sum_explicitShare_le _ _ hsum
    have htr : treasuryRawShareOf totalRaw treasuryPercent ≤ totalRaw :=
      treasuryRawShareOf_le _ _ hp
    have hrem : remainingPool totalRaw treasuryPercent =
        totalRaw - treasuryRawShareOf totalRaw treasuryPercent := rfl
    have hresid : residualPool totalRaw treasuryPercent parts =
        remainingPool totalRaw treasuryPercent -
          ((explicitPercents parts).map
            (explicitShare (remainingPool totalRaw treasuryPercent))).sum :=
      rfl
    have hdivle : implicitCount parts *
        (residualPool totalRaw treasuryPercent parts / implicitCount parts)
        ≤ residualPool totalRaw treasuryPercent parts := by
      rw [Nat.mul_comm]
      exact Nat.div_mul_le_self _ _
    constructor
    · omega
    · intro hdvd
      have heq : implicitCount parts *
          (residualPool totalRaw treasuryPercent parts /
            implicitCount parts)
          = residualPool totalRaw treasuryPercent parts :=
        Nat.mul_div_cancel' hdvd
      omega

/-- Witness for the amended C4: allocate(100, 10, [A explicit 50, B
implicit]) conserves all 100 raw units since the single implicit
participant absorbs the residual exactly. -/
theorem allocate_raw_conservation_witness :
    allocate 100 10 50 [⟨"A", some 50⟩, ⟨"B", none⟩] =
      some ⟨10, [⟨"A", 45, 0⟩, ⟨"B", 45, 0⟩]⟩ ∧
    (⟨10, [⟨"A", 45, 0⟩, ⟨"B", 45, 0⟩]⟩ :
        AllocationResult).treasuryRawShare +
      (((⟨10, [⟨"A", 45, 0⟩, ⟨"B", 45, 0⟩]⟩ :
        AllocationResult).perParticipant.map (fun s => s.rawShare)).sum)
      = 100 :=
  ⟨by decide,
    (allocate_raw_conservation 100 10 50 [⟨"A", some 50⟩, ⟨"B", none⟩]
      ⟨10, [⟨"A", 45, 0⟩, ⟨"B", 45, 0⟩]⟩ (by decide)).2 (by decide)⟩

/-- C5: allocate(10000, 15, [A at 30 percent, B implicit, C implicit]),
at any captured conversion ratio, cuts 1500 for the treasury, leaves a
remaining pool of 8500, gives A 2550 raw and B and C 2975 raw each. -/
theorem scenario_allocate_10000_15 (ratio : Nat) :
    (allocate 10000 15 ratio
        [⟨"A", some 30⟩, ⟨"B", none⟩, ⟨"C", none⟩]).map
        (fun res => (res.treasuryRawShare,
          res.perParticipant.map (fun s => (s.id, s.rawShare))))
      = some (1500, [("A", 2550), ("B", 2975), ("C", 2975)]) ∧
    remainingPool 10000 15 = 8500 :=
  ⟨rfl, rfl⟩

end SpiceTracker
